import Mathlib

/-!
Shallow embedding of the MacPin clipboard-history engine
(`src/main/index.ts`, `src/main/settings.ts` / `clipboardManager.ts`,
`clearClipboardHistory.ts`, `ipcManager.ts`) and proofs about its
history/eviction/persistence operations.

The in-memory history is a JS array of `ClipboardItem` objects.  A JS
`pinned` field can be `undefined`, `false` or `true`; we model it as
`Option Bool` (`none` = `undefined`).  Every site in the source tests it
with one of `item.pinned === true`, `item.pinned !== true`, `!item.pinned`
(JS truthiness on `undefined | false | true`) or `Boolean(item.pinned)`;
on these three values all of them coincide with `pinned = some true`,
modelled by `isPinned` below.

JS `Array.prototype.sort` is stable (ES2019); the comparator
`(a, b) => b.timestamp - a.timestamp` therefore sorts by timestamp
descending keeping ties in original order, which is exactly what the
stable insertion sort `sortByTsDesc` below computes.
-/

namespace MacPin

/-- `type` field of a `ClipboardItem`: the string union `'text' | 'image'`. -/
inductive ItemType where
  | text
  | image
deriving Repr, DecidableEq

/-- `ClipboardItem` from `src/types/clipboardItem.ts` / `clearClipboardHistory.ts`:
`id`, `type`, `content`, `timestamp` (`Date.now()`, a non-negative integer),
`preview`, `pinned` (possibly `undefined` in legacy JSON), optional `imagePath`. -/
structure ClipboardItem where
  id : String
  type : ItemType
  content : String
  timestamp : Nat
  preview : String
  pinned : Option Bool
  imagePath : Option String
deriving Repr, DecidableEq

/-- JS test `item.pinned === true` (equivalently, on the values that occur,
`Boolean(item.pinned)` and the negation of `!item.pinned`). -/
def isPinned (i : ClipboardItem) : Bool :=
  i.pinned == some true

/-- The in-place coercion `item.pinned = item.pinned === true` performed by
`saveClipboardHistory`, `loadClipboardHistory` and
`clearClipboardHistoryKeepPinned`. -/
def coercePinned (i : ClipboardItem) : ClipboardItem :=
  { i with pinned := some (isPinned i) }

/-- Insert `x` into a timestamp-descending list, after the elements whose
timestamp is strictly greater; this is the insertion step of a stable sort
with comparator `(a, b) => b.timestamp - a.timestamp`. -/
def insertByTsDesc (x : ClipboardItem) : List ClipboardItem → List ClipboardItem
  | [] => [x]
  | y :: ys => if x.timestamp < y.timestamp then y :: insertByTsDesc x ys else x :: y :: ys

/-- Stable sort by `timestamp` descending: the semantics of
`items.sort((a, b) => b.timestamp - a.timestamp)` on a JS engine with the
mandated stable sort. -/
def sortByTsDesc : List ClipboardItem → List ClipboardItem
  | [] => []
  | x :: xs => insertByTsDesc x (sortByTsDesc xs)

/-- The re-sorting step shared by `loadClipboardHistory` and the
`toggle-pinned` handler: split into pinned (`pinned === true`) and unpinned
(`pinned !== true`) items, sort each by timestamp descending, and
concatenate pinned items first. -/
def resortPinnedFirst (l : List ClipboardItem) : List ClipboardItem :=
  sortByTsDesc (l.filter (fun i => isPinned i)) ++
    sortByTsDesc (l.filter (fun i => ! isPinned i))

/-- The observable state of the engine: the in-memory `clipboardHistory`
array, the parsed contents of `clipboard-history.json` (`file`), the set of
filenames in the `clipboard-images` directory (`files`), and a counter of
`clipboard-updated` notifications sent to the renderer. -/
structure AppState where
  history : List ClipboardItem
  file : List ClipboardItem
  files : List String
  notifyCount : Nat
deriving Repr, DecidableEq

/-- `saveClipboardHistory`: coerces every `pinned` to a strict boolean in
place, then overwrites `clipboard-history.json` with the full array. -/
def saveHistory (s : AppState) : AppState :=
  let h := s.history.map coercePinned
  { s with history := h, file := h }

/-- The pure list transformation performed by `loadClipboardHistory` on the
parsed JSON array: coerce `pinned`, split into pinned / unpinned, sort each
by timestamp descending, concatenate pinned first. -/
def loadTransform (file : List ClipboardItem) : List ClipboardItem :=
  resortPinnedFirst (file.map coercePinned)

/-- `loadClipboardHistory`: replaces the in-memory history with the
transformed file contents.  It neither writes the file nor notifies. -/
def loadHistory (s : AppState) : AppState :=
  { s with history := loadTransform s.file }

/-- `[...clipboardHistory].reverse().findIndex(item => !item.pinned)`
followed by `actualIndex = length - 1 - indexToRemove`: the index of the
unpinned entry nearest the tail, or `none` when every entry is pinned. -/
def lastUnpinnedIdx (h : List ClipboardItem) : Option Nat :=
  match h.reverse.findIdx? (fun i => ! isPinned i) with
  | none => none
  | some r => some (h.length - 1 - r)

/-- The file deletion performed when the evicted entry at index `j` is an
image whose `imagePath` no other entry references (`limitHistoryItems` in
`clipboardManager.ts`, and inline in the image branch of
`startClipboardMonitoring` in `index.ts`). -/
def evictionFileCleanup (h : List ClipboardItem) (j : Nat) (files : List String) :
    List String :=
  match h[j]? with
  | none => files
  | some removed =>
    match removed.imagePath with
    | none => files
    | some p =>
      if removed.type = ItemType.image then
        let otherReferences := (h.eraseIdx j).any
          (fun i => i.type == ItemType.image && i.imagePath == some p)
        if otherReferences then files else files.filter (fun f => ! (f == p))
      else files

/-- `limitHistoryItems` (`clipboardManager.ts` lines 266-302; the same list
logic appears inline in `startClipboardMonitoring` in `index.ts`): when the
configured maximum is below the `999999` unlimited sentinel and the history
exceeds it, remove the unpinned entry nearest the tail (`splice(actualIndex,
1)` = `eraseIdx`), deleting its backing image file when unreferenced; when no
unpinned entry exists, remove nothing. -/
def limitHistoryItemsF (maxItems : Nat) (h : List ClipboardItem) (files : List String) :
    List ClipboardItem × List String :=
  if maxItems < 999999 ∧ maxItems < h.length then
    match lastUnpinnedIdx h with
    | none => (h, files)
    | some j => (h.eraseIdx j, evictionFileCleanup h j files)
  else (h, files)

/-- The text entry built by the watcher: `preview` is
`currentText.substring(0, 100)`, `pinned` starts as `false`. -/
def newTextItem (id txt : String) (ts : Nat) : ClipboardItem :=
  ⟨id, ItemType.text, txt, ts, txt.take 100, some false, none⟩

/-- The text branch of a watcher tick once a changed non-empty text has been
observed (`startClipboardMonitoring` in `index.ts` / `monitorTextClipboard`
in `clipboardManager.ts`): unshift the new entry, apply the limit, notify the
renderer, save (which re-coerces `pinned` in place).  The inline text branch
of `index.ts` differs from `clipboardManager.ts` only in not deleting the
evicted entry's image file; we model the `clipboardManager.ts` version. -/
def monitorTextStep (maxItems : Nat) (id txt : String) (ts : Nat) (s : AppState) :
    AppState :=
  let h1 := newTextItem id txt ts :: s.history
  let hf := limitHistoryItemsF maxItems h1 s.files
  let h3 := hf.1.map coercePinned
  { history := h3, file := h3, files := hf.2, notifyCount := s.notifyCount + 1 }

/-- `saveImageToFile`: derive the filename `<md5 hex digest>.png` from the
PNG buffer; write the file only when it does not already exist; return the
filename unconditionally.  Image buffers are byte lists and the digest
function is a parameter of the model. -/
def saveImageToFile (md5 : List Nat → String) (imageBuffer : List Nat)
    (files : List String) : String × List String :=
  let fileName := md5 imageBuffer ++ ".png"
  if files.contains fileName then (fileName, files) else (fileName, files ++ [fileName])

/-- The image entry built by the watcher: `content` is the hash (not the
bytes), `preview` is the fixed string, `imagePath` the stored filename. -/
def newImageItem (id imageHash : String) (ts : Nat) (fileName : String) : ClipboardItem :=
  ⟨id, ItemType.image, imageHash, ts, "Image", some false, some fileName⟩

/-- The image branch of a watcher tick once a non-empty clipboard image has
been observed (`startClipboardMonitoring` in `index.ts` /
`monitorImageClipboard` in `clipboardManager.ts`): hash the PNG bytes; if an
image entry with that hash exists, do nothing at all; otherwise store the
file, unshift a new entry, apply the limit (deleting the evicted entry's
unreferenced image file), notify, save. -/
def monitorImageStep (md5 : List Nat → String) (maxItems : Nat) (id : String)
    (imageBuffer : List Nat) (ts : Nat) (s : AppState) : AppState :=
  let imageHash := md5 imageBuffer
  if s.history.any (fun i => i.type == ItemType.image && i.content == imageHash) then s
  else
    let sf := saveImageToFile md5 imageBuffer s.files
    let h1 := newImageItem id imageHash ts sf.1 :: s.history
    let hf := limitHistoryItemsF maxItems h1 sf.2
    let h3 := hf.1.map coercePinned
    { history := h3, file := h3, files := hf.2, notifyCount := s.notifyCount + 1 }

/-- The `delete-clipboard-item` IPC handler (`index.ts` lines 866-875,
`ipcManager.ts` lines 84-98): find the first entry with the id; when found,
`splice(index, 1)`, notify, save; otherwise do nothing.  No Content Store
file is touched. -/
def deleteItem (id : String) (s : AppState) : AppState :=
  match s.history.findIdx? (fun i => i.id == id) with
  | none => s
  | some j =>
    let h2 := (s.history.eraseIdx j).map coercePinned
    { history := h2, file := h2, files := s.files, notifyCount := s.notifyCount + 1 }

/-- The pin flip in the `toggle-pinned` handler:
`pinned = !Boolean(pinned)`. -/
def toggleEntry (i : ClipboardItem) : ClipboardItem :=
  { i with pinned := some (! isPinned i) }

/-- The found branch of the `toggle-pinned` IPC handler on the history list:
flip the entry at the first index whose id matches, then re-sort
pinned-first.  Returns `none` when no entry matches. -/
def toggleListCore (id : String) (h : List ClipboardItem) :
    Option (List ClipboardItem) :=
  match h.findIdx? (fun i => i.id == id) with
  | none => none
  | some j =>
    match h[j]? with
    | none => none
    | some x => some (resortPinnedFirst (h.set j (toggleEntry x)))

/-- The `toggle-pinned` IPC handler (`index.ts` lines 878-911,
`ipcManager.ts` lines 115-149): when an entry with the id exists, flip its
`pinned`, re-sort the whole list pinned-first, notify, save; otherwise do
nothing. -/
def togglePinned (id : String) (s : AppState) : AppState :=
  match toggleListCore id s.history with
  | none => s
  | some h2 =>
    let h3 := h2.map coercePinned
    { history := h3, file := h3, files := s.files, notifyCount := s.notifyCount + 1 }

/-- `clearClipboardHistoryKeepPinned` (`clearClipboardHistory.ts`): coerce
every `pinned` to a strict boolean, retain exactly the entries with
`pinned === true`, notify, save (re-coercing), and return the retained
array.  No image file cleanup is performed here. -/
def clearKeepPinned (s : AppState) : AppState × List ClipboardItem :=
  let pinnedItems := (s.history.map coercePinned).filter (fun i => isPinned i)
  let h2 := pinnedItems.map coercePinned
  (⟨h2, h2, s.files, s.notifyCount + 1⟩, h2)

/-- The filenames referenced by image entries of a history list:
`item.type === 'image' && item.imagePath` (JS truthiness, so an empty-string
path is not counted).  Used by `cleanupUnusedImages`. -/
def liveImageNames (h : List ClipboardItem) : List String :=
  h.filterMap (fun i =>
    if i.type == ItemType.image then
      match i.imagePath with
      | some p => if p = "" then none else some p
      | none => none
    else none)

/-- `cleanupUnusedImages`: delete every file in the images directory whose
name no image entry references; the reference set is taken from the
in-memory history when it is non-empty, else from the persisted JSON. -/
def cleanupUnusedImages (s : AppState) : AppState :=
  if s.history.length = 0 then
    { s with files := s.files.filter (fun f => (liveImageNames s.file).contains f) }
  else
    { s with files := s.files.filter (fun f => (liveImageNames s.history).contains f) }

/-- The `{success, error}` object returned by the `set-clipboard-content`
IPC handler. -/
structure PasteResult where
  success : Bool
  error : Option String
deriving Repr, DecidableEq

/-- The `set-clipboard-content` IPC handler (`index.ts` lines 812-859,
`ipcManager.ts`).  `decodeOk` models whether the legacy base64 decode
succeeds, `scriptOk` whether the external `osascript` keystroke simulation
succeeds (`runAppleScript` returns `null` on failure, after showing a
permission dialog itself).  The handler returns `{success: false, error}`
when the image cannot be loaded, and otherwise runs the keystroke
simulation, ignores its result, and returns `{success: true}`. -/
def setClipboardContent (item : ClipboardItem) (decodeOk scriptOk : Bool)
    (s : AppState) : PasteResult × AppState :=
  if item.type = ItemType.text then
    (⟨true, none⟩, s)
  else
    match item.imagePath with
    | some p =>
      if s.files.contains p then (⟨true, none⟩, s)
      else (⟨false, some "load image failed"⟩, s)
    | none =>
      if decodeOk then (⟨true, none⟩, s)
      else (⟨false, some "load image failed"⟩, s)

/-- The operations on the history that the exposed interface and the
watcher can perform. -/
inductive Op where
  | opInsertText (id txt : String) (ts : Nat)
  | opInsertImage (id : String) (imageBuffer : List Nat) (ts : Nat)
  | opDelete (id : String)
  | opToggle (id : String)
  | opClear
  | opLoad
  | opSave
deriving Repr, DecidableEq

/-- Apply one operation to the state. -/
def applyOp (md5 : List Nat → String) (maxItems : Nat) : Op → AppState → AppState
  | .opInsertText id txt ts, s => monitorTextStep maxItems id txt ts s
  | .opInsertImage id buf ts, s => monitorImageStep md5 maxItems id buf ts s
  | .opDelete id, s => deleteItem id s
  | .opToggle id, s => togglePinned id s
  | .opClear, s => (clearKeepPinned s).1
  | .opLoad, s => loadHistory s
  | .opSave, s => saveHistory s

/-- The state of a fresh install: no history, no file contents, no stored
images. -/
def initialState : AppState := ⟨[], [], [], 0⟩

/-- Structural form of `lastUnpinnedIdx`, convenient for induction. -/
def lastUnpinnedIdxRec : List ClipboardItem → Option Nat
  | [] => none
  | a :: t =>
    match lastUnpinnedIdxRec t with
    | some j => some (j + 1)
    | none => if isPinned a then none else some 0

/-- Every `pinned` field is a strict boolean (never `undefined`). -/
def AllBool (l : List ClipboardItem) : Prop := ∀ i ∈ l, ∃ b, i.pinned = some b

/-! ### Concrete states used by witnesses and counterexamples -/

/-- State for the C1 counterexample: a single image entry referencing
`h.png`, which is present in the Content Store. -/
def exStateC1 : AppState :=
  ⟨[⟨"1", ItemType.image, "h", 5, "Image", some false, some "h.png"⟩],
   [⟨"1", ItemType.image, "h", 5, "Image", some false, some "h.png"⟩],
   ["h.png"], 0⟩

/-- State for the C1 witness: two image entries referencing distinct files. -/
def exW1 : AppState :=
  ⟨[⟨"1", ItemType.image, "k", 6, "Image", some false, some "k.png"⟩,
    ⟨"2", ItemType.image, "g", 5, "Image", some false, some "g.png"⟩],
   [⟨"1", ItemType.image, "k", 6, "Image", some false, some "k.png"⟩,
    ⟨"2", ItemType.image, "g", 5, "Image", some false, some "g.png"⟩],
   ["g.png", "k.png"], 0⟩

/-- History for the C3 witness: one pinned entry above one unpinned entry. -/
def exH3 : List ClipboardItem :=
  [⟨"a", ItemType.text, "A", 3, "A", some true, none⟩,
   ⟨"b", ItemType.text, "B", 2, "B", some false, none⟩]

/-- All-pinned over-limit history for the C3 witness. -/
def exP3 : List ClipboardItem :=
  [⟨"a", ItemType.text, "A", 3, "A", some true, none⟩,
   ⟨"b", ItemType.text, "B", 2, "B", some true, none⟩]

/-- State for the C7 witness: the history already holds the image whose
hash is `"h"`. -/
def exStateC7 : AppState :=
  ⟨[⟨"1", ItemType.image, "h", 5, "Image", some false, some "h.png"⟩],
   [⟨"1", ItemType.image, "h", 5, "Image", some false, some "h.png"⟩],
   ["h.png"], 0⟩

/-- State for the C10 witness: a single entry with id `"a"`. -/
def exStateC10 : AppState :=
  ⟨[⟨"a", ItemType.text, "A", 1, "A", some true, none⟩],
   [⟨"a", ItemType.text, "A", 1, "A", some true, none⟩],
   [], 0⟩

/-- State for the C5 counterexample: an unpinned entry sits above a pinned
one — exactly what a watcher insertion leaves behind. -/
def exStateC5 : AppState :=
  ⟨[⟨"1", ItemType.text, "B", 2, "B", some false, none⟩,
    ⟨"2", ItemType.text, "A", 1, "A", some true, none⟩],
   [], [], 0⟩

/-- State for the C5 witness: canonically ordered with boolean pins. -/
def exW5 : AppState :=
  ⟨[⟨"1", ItemType.text, "A", 1, "A", some true, none⟩,
    ⟨"2", ItemType.text, "B", 2, "B", some false, none⟩],
   [], [], 0⟩

/-- State for the C8 counterexample: two pinned entries whose timestamps
ascend, so a reload re-sorts them. -/
def exStateC8 : AppState :=
  ⟨[⟨"1", ItemType.text, "A", 1, "A", some true, none⟩,
    ⟨"2", ItemType.text, "B", 2, "B", some true, none⟩,
    ⟨"3", ItemType.text, "C", 3, "C", some false, none⟩],
   [], [], 0⟩

/-- State for the C8 witness: pinned entries in timestamp-descending order. -/
def exW8 : AppState :=
  ⟨[⟨"2", ItemType.text, "B", 2, "B", some true, none⟩,
    ⟨"1", ItemType.text, "A", 1, "A", some true, none⟩,
    ⟨"3", ItemType.text, "C", 3, "C", some false, none⟩],
   [], [], 0⟩

/-- State for the C2 counterexample: a single pinned entry; the next watcher
insertion will sit above it. -/
def exStateC2 : AppState :=
  ⟨[⟨"a", ItemType.text, "A", 1, "A", some true, none⟩],
   [⟨"a", ItemType.text, "A", 1, "A", some true, none⟩],
   [], 0⟩

/-- State for the C2 witness: all entries unpinned, timestamps descending. -/
def exW2 : AppState :=
  ⟨[⟨"a", ItemType.text, "A", 2, "A", some false, none⟩,
    ⟨"b", ItemType.text, "B", 1, "B", some false, none⟩],
   [⟨"a", ItemType.text, "A", 2, "A", some false, none⟩],
   [], 0⟩

/-- State for the C6 counterexample: reachable shape where a watcher
insertion left the unpinned entry `d` above the pinned entry `c`. -/
def exStateC6 : AppState :=
  ⟨[⟨"d", ItemType.text, "D", 2, "D", some false, none⟩,
    ⟨"c", ItemType.text, "C", 0, "C", some true, none⟩,
    ⟨"b", ItemType.text, "B", 1, "B", some false, none⟩],
   [], [], 0⟩

/-- State for the C6 witness: canonically ordered, boolean pins, unique
ids. -/
def exW6 : AppState :=
  ⟨[⟨"a", ItemType.text, "A", 2, "A", some true, none⟩,
    ⟨"b", ItemType.text, "B", 1, "B", some false, none⟩],
   [], [], 0⟩

/-- State for the C4 witness. -/
def exW4 : AppState :=
  ⟨[⟨"a", ItemType.text, "A", 1, "A", some false, none⟩],
   [⟨"a", ItemType.text, "A", 1, "A", some false, none⟩],
   [], 0⟩

/-- Count invariant of claim C4: whenever the configured maximum is below
the unlimited sentinel, both the in-memory history and the persisted file
hold at most that many entries. -/
def InvLen (maxItems : Nat) (s : AppState) : Prop :=
  maxItems < 999999 → (s.history.length ≤ maxItems ∧ s.file.length ≤ maxItems)

/-- Pointwise form of the toggle mutation: flip the entry whose id matches,
leave every other entry alone.  Under unique ids this coincides with the
handler's set-at-found-index, which is the form the proofs use. -/
def updIfId (id : String) (i : ClipboardItem) : ClipboardItem :=
  if i.id == id then toggleEntry i else i

/-- The toggle handler as a pure list transformation (identity when no
entry matches), including the pin coercion performed by the save call. -/
def toggleList (id : String) (h : List ClipboardItem) : List ClipboardItem :=
  match toggleListCore id h with
  | none => h
  | some h2 => h2.map coercePinned

/-! ### Order predicates -/

/-- `a` may precede `b` in a timestamp-descending list. -/
def tsGe (a b : ClipboardItem) : Prop := b.timestamp ≤ a.timestamp

/-- Sorted by timestamp descending. -/
def TsSorted (l : List ClipboardItem) : Prop := l.Pairwise tsGe

/-- `a` may precede `b` in the canonical order: pinned entries first, and
by timestamp descending within each group. -/
def keyGe (a b : ClipboardItem) : Prop :=
  isPinned b ≤ isPinned a ∧ (isPinned a = isPinned b → b.timestamp ≤ a.timestamp)

instance : DecidablePred (fun p : ClipboardItem × ClipboardItem => keyGe p.1 p.2) :=
  fun _ => by unfold keyGe; infer_instance

instance keyGeDecidable (a b : ClipboardItem) : Decidable (keyGe a b) := by
  unfold keyGe; infer_instance

instance tsGeDecidable (a b : ClipboardItem) : Decidable (tsGe a b) := by
  unfold tsGe; infer_instance

instance tsSortedDecidable (l : List ClipboardItem) : Decidable (TsSorted l) := by
  unfold TsSorted; infer_instance

/-- The canonical order of the spec: every pinned entry before every
unpinned one, and timestamps descending within each group. -/
def Ordered (l : List ClipboardItem) : Prop := l.Pairwise keyGe

instance orderedDecidable (l : List ClipboardItem) : Decidable (Ordered l) := by
  unfold Ordered; infer_instance

/-! ### Lemmas about the stable sort -/

theorem perm_insertByTsDesc (x : ClipboardItem) (l : List ClipboardItem) :
    List.Perm (insertByTsDesc x l) (x :: l) := by
  induction l with
  | nil => simp [insertByTsDesc]
  | cons y ys ih =>
    by_cases hlt : x.timestamp < y.timestamp
    · simp only [insertByTsDesc, if_pos hlt]
      exact ((ih.cons y).trans (List.Perm.swap x y ys))
    · simp [insertByTsDesc, if_neg hlt]

theorem perm_sortByTsDesc (l : List ClipboardItem) : List.Perm (sortByTsDesc l) l := by
  induction l with
  | nil => simp [sortByTsDesc]
  | cons x xs ih =>
    exact (perm_insertByTsDesc x (sortByTsDesc xs)).trans (ih.cons x)

theorem perm_resortPinnedFirst (l : List ClipboardItem) : List.Perm (resortPinnedFirst l) l := by
  unfold resortPinnedFirst
  exact ((perm_sortByTsDesc _).append (perm_sortByTsDesc _)).trans
    (List.filter_append_perm _ l)

theorem tsSorted_head (y : ClipboardItem) (ys : List ClipboardItem)
    (h : TsSorted (y :: ys)) : ∀ z ∈ y :: ys, z.timestamp ≤ y.timestamp := by
  intro z hz
  rcases List.mem_cons.mp hz with rfl | hz
  · exact le_refl _
  · exact (List.pairwise_cons.mp h).1 z hz

theorem tsSorted_insertByTsDesc (x : ClipboardItem) (l : List ClipboardItem)
    (h : TsSorted l) : TsSorted (insertByTsDesc x l) := by
  induction l with
  | nil => simp [insertByTsDesc, TsSorted]
  | cons y ys ih =>
    rcases List.pairwise_cons.mp h with ⟨hy, ht⟩
    by_cases hlt : x.timestamp < y.timestamp
    · simp only [insertByTsDesc, if_pos hlt]
      refine List.pairwise_cons.mpr ⟨?_, ih ht⟩
      intro z hz
      rcases List.mem_cons.mp ((perm_insertByTsDesc x ys).mem_iff.mp hz) with h1 | h1
      · subst h1; exact le_of_lt hlt
      · exact hy z h1
    · simp only [insertByTsDesc, if_neg hlt]
      refine List.pairwise_cons.mpr ⟨?_, h⟩
      intro z hz
      exact le_trans (tsSorted_head y ys h z hz) (le_of_not_lt hlt)

theorem tsSorted_sortByTsDesc (l : List ClipboardItem) : TsSorted (sortByTsDesc l) := by
  induction l with
  | nil => simp [sortByTsDesc, TsSorted]
  | cons x xs ih => exact tsSorted_insertByTsDesc x (sortByTsDesc xs) ih

theorem insertByTsDesc_eq_cons (x : ClipboardItem) (l : List ClipboardItem)
    (h : ∀ z ∈ l, z.timestamp ≤ x.timestamp) : insertByTsDesc x l = x :: l := by
  cases l with
  | nil => rfl
  | cons y ys =>
    have : ¬ x.timestamp < y.timestamp :=
      not_lt_of_le (h y (List.mem_cons_self y ys))
    simp [insertByTsDesc, if_neg this]

theorem sortByTsDesc_eq_self (l : List ClipboardItem) (h : TsSorted l) :
    sortByTsDesc l = l := by
  induction l with
  | nil => rfl
  | cons x xs ih =>
    rcases List.pairwise_cons.mp h with ⟨hx, ht⟩
    have : sortByTsDesc (x :: xs) = insertByTsDesc x xs := by
      simp [sortByTsDesc, ih ht]
    rw [this, insertByTsDesc_eq_cons x xs hx]

theorem filter_insertByTsDesc (p : ClipboardItem → Bool) (x : ClipboardItem)
    (l : List ClipboardItem) (hs : TsSorted l) :
    (insertByTsDesc x l).filter p =
      if p x then insertByTsDesc x (l.filter p) else l.filter p := by
  induction l with
  | nil => cases hp : p x <;> simp [insertByTsDesc, List.filter, hp]
  | cons y ys ih =>
    rcases List.pairwise_cons.mp hs with ⟨hy, ht⟩
    by_cases hlt : x.timestamp < y.timestamp
    · rw [show insertByTsDesc x (y :: ys) = y :: insertByTsDesc x ys from by
        simp [insertByTsDesc, if_pos hlt]]
      cases hpy : p y with
      | true =>
        rw [List.filter_cons_of_pos hpy, List.filter_cons_of_pos hpy, ih ht]
        cases hpx : p x with
        | true =>
          simp only [if_pos]
          rw [show insertByTsDesc x (y :: List.filter p ys) =
            y :: insertByTsDesc x (List.filter p ys) from by
              simp [insertByTsDesc, if_pos hlt]]
        | false => simp
      | false =>
        rw [List.filter_cons_of_neg (by simp [hpy]),
          List.filter_cons_of_neg (by simp [hpy]), ih ht]
    · rw [show insertByTsDesc x (y :: ys) = x :: y :: ys from by
        simp [insertByTsDesc, if_neg hlt]]
      cases hpx : p x with
      | true =>
        rw [List.filter_cons_of_pos hpx]
        simp only [if_pos]
        rw [insertByTsDesc_eq_cons]
        intro z hz
        exact le_trans
          (tsSorted_head y ys hs z (List.mem_of_mem_filter hz))
          (le_of_not_lt hlt)
      | false =>
        rw [List.filter_cons_of_neg (show ¬ p x = true by simp [hpx])]
        simp

theorem length_resortPinnedFirst (l : List ClipboardItem) :
    (resortPinnedFirst l).length = l.length :=
  (perm_resortPinnedFirst l).length_eq

theorem filter_sortByTsDesc (p : ClipboardItem → Bool) (l : List ClipboardItem) :
    (sortByTsDesc l).filter p = sortByTsDesc (l.filter p) := by
  induction l with
  | nil => rfl
  | cons x xs ih =>
    have hstep := filter_insertByTsDesc p x (sortByTsDesc xs) (tsSorted_sortByTsDesc xs)
    cases hpx : p x with
    | true =>
      rw [show sortByTsDesc (x :: xs) = insertByTsDesc x (sortByTsDesc xs) from rfl,
        hstep, if_pos hpx, List.filter_cons_of_pos hpx, ih]
      rfl
    | false =>
      rw [show sortByTsDesc (x :: xs) = insertByTsDesc x (sortByTsDesc xs) from rfl,
        hstep, if_neg (by simp [hpx]), List.filter_cons_of_neg (by simp [hpx]), ih]

/-! ### Lemmas about pinned coercion -/

theorem isPinned_coerce (i : ClipboardItem) : isPinned (coercePinned i) = isPinned i := by
  cases hb : isPinned i <;> simp [coercePinned, isPinned, hb] <;>
    simp [isPinned] at hb <;> simp [hb]

theorem coerce_eq_self (i : ClipboardItem) (b : Bool) (h : i.pinned = some b) :
    coercePinned i = i := by
  cases i
  cases b <;> simp_all [coercePinned, isPinned]

theorem map_coerce_eq_self (l : List ClipboardItem) (h : AllBool l) :
    l.map coercePinned = l := by
  have : ∀ i ∈ l, coercePinned i = id i := by
    intro i hi
    rcases h i hi with ⟨b, hb⟩
    simpa using coerce_eq_self i b hb
  rw [List.map_congr_left this, List.map_id]

theorem allBool_map_coerce (l : List ClipboardItem) : AllBool (l.map coercePinned) := by
  intro i hi
  rcases List.mem_map.mp hi with ⟨j, _, rfl⟩
  exact ⟨isPinned j, rfl⟩

theorem allBool_of_perm {l m : List ClipboardItem} (hp : List.Perm l m)
    (h : AllBool l) : AllBool m := fun i hi => h i (hp.mem_iff.mpr hi)

theorem keyGe_coerce (a b : ClipboardItem) :
    keyGe (coercePinned a) (coercePinned b) ↔ keyGe a b := by
  unfold keyGe
  rw [isPinned_coerce, isPinned_coerce]
  exact Iff.rfl

theorem tsGe_coerce (a b : ClipboardItem) :
    tsGe (coercePinned a) (coercePinned b) ↔ tsGe a b := Iff.rfl

theorem ordered_map_coerce (l : List ClipboardItem) (h : Ordered l) :
    Ordered (l.map coercePinned) := by
  unfold Ordered at h ⊢
  rw [List.pairwise_map]
  exact h.imp (fun hab => (keyGe_coerce _ _).mpr hab)

theorem tsSorted_map_coerce (l : List ClipboardItem) (h : TsSorted l) :
    TsSorted (l.map coercePinned) := by
  unfold TsSorted at h ⊢
  rw [List.pairwise_map]
  exact h.imp (fun hab => hab)

/-! ### Lemmas about the canonical order -/

theorem ordered_cons_unpinned (a : ClipboardItem) (t : List ClipboardItem)
    (h : Ordered (a :: t)) (ha : isPinned a = false) :
    ∀ z ∈ t, isPinned z = false := by
  intro z hz
  rcases (List.pairwise_cons.mp h).1 z hz with ⟨hle, _⟩
  rw [ha] at hle
  cases hpz : isPinned z with
  | false => rfl
  | true => rw [hpz] at hle; exact absurd hle (by decide)

theorem ordered_partition (l : List ClipboardItem) (h : Ordered l) :
    l.filter (fun i => isPinned i) ++ l.filter (fun i => ! isPinned i) = l := by
  induction l with
  | nil => rfl
  | cons a t ih =>
    have ht : Ordered t := (List.pairwise_cons.mp h).2
    cases hpa : isPinned a with
    | true =>
      rw [List.filter_cons_of_pos (by simp [hpa]),
        List.filter_cons_of_neg (by simp [hpa])]
      simpa using ih ht
    | false =>
      have hall := ordered_cons_unpinned a t h hpa
      rw [List.filter_cons_of_neg (by simp [hpa]),
        List.filter_cons_of_pos (by simp [hpa])]
      have h1 : t.filter (fun i => isPinned i) = [] :=
        List.filter_eq_nil_iff.mpr (fun z hz => by simp [hall z hz])
      have h2 : t.filter (fun i => ! isPinned i) = t :=
        List.filter_eq_self.mpr (fun z hz => by simp [hall z hz])
      simp [h1, h2]

theorem tsSorted_filter_pin (l : List ClipboardItem) (h : Ordered l) :
    TsSorted (l.filter (fun i => isPinned i)) := by
  have hsub : List.Pairwise keyGe (l.filter (fun i => isPinned i)) :=
    h.sublist (List.filter_sublist l)
  refine List.Pairwise.imp_of_mem ?_ hsub
  intro a b ha hb hab
  have hpa : isPinned a = true := by simpa using (List.of_mem_filter ha)
  have hpb : isPinned b = true := by simpa using (List.of_mem_filter hb)
  exact hab.2 (hpa.trans hpb.symm)

theorem tsSorted_filter_unpin (l : List ClipboardItem) (h : Ordered l) :
    TsSorted (l.filter (fun i => ! isPinned i)) := by
  have hsub : List.Pairwise keyGe (l.filter (fun i => ! isPinned i)) :=
    h.sublist (List.filter_sublist l)
  refine List.Pairwise.imp_of_mem ?_ hsub
  intro a b ha hb hab
  have hpa : isPinned a = false := by simpa using (List.of_mem_filter ha)
  have hpb : isPinned b = false := by simpa using (List.of_mem_filter hb)
  exact hab.2 (hpa.trans hpb.symm)

theorem ordered_resort (l : List ClipboardItem) : Ordered (resortPinnedFirst l) := by
  unfold resortPinnedFirst Ordered
  rw [List.pairwise_append]
  refine ⟨?_, ?_, ?_⟩
  · have hs := tsSorted_sortByTsDesc (l.filter (fun i => isPinned i))
    refine List.Pairwise.imp_of_mem ?_ hs
    intro a b ha hb hab
    have hpa : isPinned a = true := by
      simpa using List.of_mem_filter
        ((perm_sortByTsDesc (l.filter (fun i => isPinned i))).mem_iff.mp ha)
    have hpb : isPinned b = true := by
      simpa using List.of_mem_filter
        ((perm_sortByTsDesc (l.filter (fun i => isPinned i))).mem_iff.mp hb)
    exact ⟨by rw [hpa, hpb], fun _ => hab⟩
  · have hs := tsSorted_sortByTsDesc (l.filter (fun i => ! isPinned i))
    refine List.Pairwise.imp_of_mem ?_ hs
    intro a b ha hb hab
    have hpa : isPinned a = false := by
      simpa using List.of_mem_filter
        ((perm_sortByTsDesc (l.filter (fun i => ! isPinned i))).mem_iff.mp ha)
    have hpb : isPinned b = false := by
      simpa using List.of_mem_filter
        ((perm_sortByTsDesc (l.filter (fun i => ! isPinned i))).mem_iff.mp hb)
    exact ⟨by rw [hpa, hpb], fun _ => hab⟩
  · intro a ha b hb
    have hpa : isPinned a = true := by
      simpa using List.of_mem_filter
        ((perm_sortByTsDesc (l.filter (fun i => isPinned i))).mem_iff.mp ha)
    have hpb : isPinned b = false := by
      simpa using List.of_mem_filter
        ((perm_sortByTsDesc (l.filter (fun i => ! isPinned i))).mem_iff.mp hb)
    refine ⟨by rw [hpa, hpb]; decide, fun heq => ?_⟩
    rw [hpa, hpb] at heq
    exact absurd heq (by decide)

theorem resort_eq_self (l : List ClipboardItem) (h : Ordered l) :
    resortPinnedFirst l = l := by
  unfold resortPinnedFirst
  rw [sortByTsDesc_eq_self _ (tsSorted_filter_pin l h),
    sortByTsDesc_eq_self _ (tsSorted_filter_unpin l h)]
  exact ordered_partition l h

theorem filter_resort (p : ClipboardItem → Bool) (l : List ClipboardItem) :
    (resortPinnedFirst l).filter p = resortPinnedFirst (l.filter p) := by
  unfold resortPinnedFirst
  rw [List.filter_append, filter_sortByTsDesc, filter_sortByTsDesc,
    List.filter_filter, List.filter_filter, List.filter_filter, List.filter_filter]
  rw [List.filter_congr (fun x _ => Bool.and_comm (p x) (isPinned x)),
    List.filter_congr (fun x _ => Bool.and_comm (p x) (! isPinned x))]

theorem ordered_sublist {l m : List ClipboardItem} (hs : List.Sublist l m)
    (h : Ordered m) : Ordered l := h.sublist hs

/-! ### Characterizing the eviction index -/

theorem findIdx?_some_lt {α : Type} (p : α → Bool) (l : List α) (r : Nat)
    (h : List.findIdx? p l = some r) : r < l.length := by
  induction l generalizing r with
  | nil => simp [List.findIdx?] at h
  | cons a t ih =>
    rw [List.findIdx?_cons] at h
    by_cases hpa : p a = true
    · rw [if_pos hpa] at h
      cases h
      simp
    · rw [if_neg hpa, List.findIdx?_succ] at h
      cases hf : List.findIdx? p t with
      | none => rw [hf] at h; simp at h
      | some r0 =>
        rw [hf] at h
        rw [Option.map_some'] at h
        cases h
        have := ih r0 hf
        simp
        omega

theorem lastUnpinnedIdx_nil : lastUnpinnedIdx [] = none := rfl

theorem lastUnpinnedIdx_eq_rec (h : List ClipboardItem) :
    lastUnpinnedIdx h = lastUnpinnedIdxRec h := by
  induction h with
  | nil => rfl
  | cons a t ih =>
    unfold lastUnpinnedIdx at ih ⊢
    rw [List.reverse_cons, List.findIdx?_append]
    cases hf : List.findIdx? (fun i => ! isPinned i) t.reverse with
    | some r =>
      have hrlt : r < t.length := by
        have := findIdx?_some_lt _ _ _ hf
        simpa using this
      rw [hf] at ih
      simp only [Option.or_some]
      show some ((a :: t).length - 1 - r) = lastUnpinnedIdxRec (a :: t)
      unfold lastUnpinnedIdxRec
      rw [← ih]
      simp only [List.length_cons]
      congr 1
      omega
    | none =>
      rw [hf] at ih
      simp only [Option.none_or]
      show (match Option.map (fun i => i + t.reverse.length)
          (List.findIdx? (fun i => ! isPinned i) [a]) with
        | none => none
        | some r => some ((a :: t).length - 1 - r)) = lastUnpinnedIdxRec (a :: t)
      unfold lastUnpinnedIdxRec
      rw [← ih]
      cases hpa : isPinned a with
      | true =>
        have : List.findIdx? (fun i => ! isPinned i) [a] = none := by
          rw [List.findIdx?_cons]
          simp [hpa]
        rw [this]
        simp
      | false =>
        have : List.findIdx? (fun i => ! isPinned i) [a] = some 0 := by
          rw [List.findIdx?_cons]
          simp [hpa]
        rw [this]
        simp

theorem lastUnpinnedIdx_eq_none_iff (h : List ClipboardItem) :
    lastUnpinnedIdx h = none ↔ ∀ i ∈ h, isPinned i = true := by
  rw [lastUnpinnedIdx_eq_rec]
  induction h with
  | nil => simp [lastUnpinnedIdxRec]
  | cons a t ih =>
    unfold lastUnpinnedIdxRec
    cases hf : lastUnpinnedIdxRec t with
    | some j =>
      rw [hf] at ih
      simp only []
      constructor
      · intro hcontra; exact absurd hcontra (by simp)
      · intro hall
        have : ∀ i ∈ t, isPinned i = true := fun i hi => hall i (List.mem_cons_of_mem a hi)
        exact absurd (ih.mpr this) (by simp)
    | none =>
      rw [hf] at ih
      cases hpa : isPinned a with
      | true =>
        simp only [if_pos rfl]
        constructor
        · intro _ i hi
          rcases List.mem_cons.mp hi with rfl | hi
          · exact hpa
          · exact ih.mp rfl i hi
        · intro _; rfl
      | false =>
        simp only [if_neg (by simp [hpa] : ¬ isPinned a = true)]
        constructor
        · intro hcontra; exact absurd hcontra (by simp)
        · intro hall
          have := hall a (List.mem_cons_self a t)
          rw [hpa] at this
          exact absurd this (by simp)

theorem lastUnpinnedIdx_isSome (h : List ClipboardItem)
    (hex : ∃ i ∈ h, isPinned i = false) : ∃ j, lastUnpinnedIdx h = some j := by
  cases hl : lastUnpinnedIdx h with
  | some j => exact ⟨j, rfl⟩
  | none =>
    rcases hex with ⟨i, hi, hpi⟩
    have := (lastUnpinnedIdx_eq_none_iff h).mp hl i hi
    rw [hpi] at this
    exact absurd this (by simp)

theorem lastUnpinnedIdx_spec (h : List ClipboardItem) (j : Nat)
    (hj : lastUnpinnedIdx h = some j) :
    j < h.length ∧ (∃ x, h[j]? = some x ∧ isPinned x = false) ∧
      ∀ k, j < k → ∀ x, h[k]? = some x → isPinned x = true := by
  rw [lastUnpinnedIdx_eq_rec] at hj
  induction h generalizing j with
  | nil => simp [lastUnpinnedIdxRec] at hj
  | cons a t ih =>
    unfold lastUnpinnedIdxRec at hj
    cases hf : lastUnpinnedIdxRec t with
    | some j0 =>
      rw [hf] at hj
      simp only [Option.some_inj] at hj
      subst hj
      rcases ih j0 hf with ⟨hlt, ⟨x, hx, hpx⟩, hafter⟩
      refine ⟨by simp; omega, ⟨x, by simpa using hx, hpx⟩, ?_⟩
      intro k hk y hy
      cases k with
      | zero => omega
      | succ k0 =>
        have : j0 < k0 := by omega
        exact hafter k0 this y (by simpa using hy)
    | none =>
      rw [hf] at hj
      cases hpa : isPinned a with
      | true => rw [if_pos (by simp [hpa])] at hj; cases hj
      | false =>
        rw [if_neg (by simp [hpa])] at hj
        simp only [Option.some_inj] at hj
        subst hj
        refine ⟨by simp, ⟨a, by simp, hpa⟩, ?_⟩
        intro k hk y hy
        cases k with
        | zero => omega
        | succ k0 =>
          have hyt : t[k0]? = some y := by simpa using hy
          have hymem : y ∈ t := by
            have := List.getElem?_eq_some_iff.mp hyt
            rcases this with ⟨hb, hgb⟩
            exact hgb ▸ List.getElem_mem hb
          exact (lastUnpinnedIdx_eq_none_iff t).mp
            ((lastUnpinnedIdx_eq_rec t).trans hf) y hymem

/-! ### Lemmas about the eviction step -/

theorem list_decomp_at {α : Type} (l : List α) (j : Nat) (x : α)
    (h : l[j]? = some x) : l = l.take j ++ x :: l.drop (j + 1) := by
  rcases List.getElem?_eq_some_iff.mp h with ⟨hb, hgb⟩
  conv_lhs => rw [← List.take_append_drop j l]
  rw [List.drop_eq_getElem_cons hb, hgb]

theorem eraseIdx_filter_of_neg (p : ClipboardItem → Bool) (h : List ClipboardItem)
    (j : Nat) (x : ClipboardItem) (hx : h[j]? = some x) (hpx : p x = false) :
    (h.eraseIdx j).filter p = h.filter p := by
  rw [List.eraseIdx_eq_take_drop_succ]
  conv_rhs => rw [list_decomp_at h j x hx]
  rw [List.filter_append, List.filter_append,
    List.filter_cons_of_neg (by simp [hpx])]

theorem mem_of_mem_eraseIdx {x : ClipboardItem} {h : List ClipboardItem} {j : Nat}
    (hm : x ∈ h.eraseIdx j) : x ∈ h := (List.eraseIdx_sublist h j).mem hm

theorem limit_fst_sublist (maxItems : Nat) (h : List ClipboardItem)
    (files : List String) :
    ((limitHistoryItemsF maxItems h files).1).Sublist h := by
  unfold limitHistoryItemsF
  by_cases hc : maxItems < 999999 ∧ maxItems < h.length
  · rw [if_pos hc]
    cases hl : lastUnpinnedIdx h with
    | none => exact List.Sublist.refl h
    | some j => exact List.eraseIdx_sublist h j
  · rw [if_neg hc]

theorem limit_filter_pinned (maxItems : Nat) (h : List ClipboardItem)
    (files : List String) :
    ((limitHistoryItemsF maxItems h files).1).filter (fun i => isPinned i) =
      h.filter (fun i => isPinned i) := by
  unfold limitHistoryItemsF
  by_cases hc : maxItems < 999999 ∧ maxItems < h.length
  · rw [if_pos hc]
    cases hl : lastUnpinnedIdx h with
    | none => rfl
    | some j =>
      rcases lastUnpinnedIdx_spec h j hl with ⟨_, ⟨x, hx, hpx⟩, _⟩
      exact eraseIdx_filter_of_neg _ h j x hx hpx
  · rw [if_neg hc]

theorem limit_eq_of_all_pinned (maxItems : Nat) (h : List ClipboardItem)
    (files : List String) (hall : ∀ i ∈ h, isPinned i = true) :
    limitHistoryItemsF maxItems h files = (h, files) := by
  unfold limitHistoryItemsF
  by_cases hc : maxItems < 999999 ∧ maxItems < h.length
  · rw [if_pos hc, (lastUnpinnedIdx_eq_none_iff h).mpr hall]
  · rw [if_neg hc]

theorem limit_eq_erase (maxItems : Nat) (h : List ClipboardItem)
    (files : List String) (j : Nat) (hml : maxItems < 999999)
    (hgt : maxItems < h.length) (hj : lastUnpinnedIdx h = some j) :
    limitHistoryItemsF maxItems h files = (h.eraseIdx j, evictionFileCleanup h j files) := by
  unfold limitHistoryItemsF
  rw [if_pos ⟨hml, hgt⟩, hj]

theorem limit_noop_of_le (maxItems : Nat) (h : List ClipboardItem)
    (files : List String) (hle : h.length ≤ maxItems) :
    limitHistoryItemsF maxItems h files = (h, files) := by
  unfold limitHistoryItemsF
  rw [if_neg (by omega)]

theorem limit_length_le (maxItems : Nat) (h : List ClipboardItem)
    (files : List String) (hml : maxItems < 999999)
    (hlen : h.length ≤ maxItems + 1)
    (hex : ∃ i ∈ h, isPinned i = false) :
    ((limitHistoryItemsF maxItems h files).1).length ≤ maxItems := by
  by_cases hgt : maxItems < h.length
  · rcases lastUnpinnedIdx_isSome h hex with ⟨j, hj⟩
    rw [limit_eq_erase maxItems h files j hml hgt hj]
    rcases lastUnpinnedIdx_spec h j hj with ⟨hjlt, _, _⟩
    simp only [List.length_eraseIdx, if_pos hjlt]
    omega
  · rw [limit_noop_of_le maxItems h files (by omega)]
    show h.length ≤ maxItems
    omega

theorem lastUnpinnedIdx_cons_of_all_pinned (new : ClipboardItem)
    (h : List ClipboardItem) (hnew : isPinned new = false)
    (hall : ∀ i ∈ h, isPinned i = true) :
    lastUnpinnedIdx (new :: h) = some 0 := by
  rw [lastUnpinnedIdx_eq_rec]
  unfold lastUnpinnedIdxRec
  rw [← lastUnpinnedIdx_eq_rec, (lastUnpinnedIdx_eq_none_iff h).mpr hall]
  simp [hnew]

theorem limit_cons_invariant (maxItems : Nat) (new : ClipboardItem)
    (h : List ClipboardItem) (files : List String) (hml : maxItems < 999999)
    (hnew : isPinned new = false)
    (hinv : h.length ≤ maxItems ∨ ∀ i ∈ h, isPinned i = true) :
    (((limitHistoryItemsF maxItems (new :: h) files).1).length ≤ maxItems) ∨
      (∀ i ∈ (limitHistoryItemsF maxItems (new :: h) files).1, isPinned i = true) := by
  rcases hinv with hlen | hall
  · left
    exact limit_length_le maxItems (new :: h) files hml (by simp; omega)
      ⟨new, List.mem_cons_self new h, hnew⟩
  · by_cases hgt : maxItems < (new :: h).length
    · right
      rw [limit_eq_erase maxItems (new :: h) files 0 hml hgt
        (lastUnpinnedIdx_cons_of_all_pinned new h hnew hall)]
      simpa using hall
    · left
      rw [limit_noop_of_le maxItems (new :: h) files (by omega)]
      show (new :: h).length ≤ maxItems
      omega

/-! ### Small auxiliary facts -/

theorem not_contains_filter_live (files live : List String) (p : String)
    (hp : p ∉ live) : p ∉ files.filter (fun f => live.contains f) := by
  intro hmem
  have := List.of_mem_filter hmem
  exact hp (by simpa using this)

/-! ### Claim C1 -/

/-- C1 counterexample: deleting the only entry — an Image entry whose
`imagePath` (`h.png`) no other entry references — removes the entry from the
history but leaves `h.png` in the Content Store, so the backing file is not
deleted as part of the delete operation, contrary to the claim. -/
theorem delete_keeps_backing_file :
    (deleteItem "1" exStateC1).history = [] ∧
      (deleteItem "1" exStateC1).files = ["h.png"] := by
  constructor <;> rfl

/-- C1 (amended): the delete-entry operation removes the (first) entry with
the given id, persists and notifies, but deletes no Content Store file; a
backing file that no remaining entry references is removed only by the
separate `cleanupUnusedImages` pass run afterwards. -/
theorem delete_entry_files_untouched (id : String) (s : AppState) (j : Nat)
    (hj : s.history.findIdx? (fun i => i.id == id) = some j) :
    (deleteItem id s).files = s.files ∧
    (deleteItem id s).history = (s.history.eraseIdx j).map coercePinned ∧
    (deleteItem id s).file = (deleteItem id s).history ∧
    (deleteItem id s).notifyCount = s.notifyCount + 1 ∧
    ∀ p : String, p ∉ liveImageNames (deleteItem id s).history →
      p ∉ (cleanupUnusedImages (deleteItem id s)).files := by
  unfold deleteItem
  rw [hj]
  refine ⟨rfl, rfl, rfl, rfl, ?_⟩
  intro p hp
  unfold cleanupUnusedImages
  by_cases hz : ((s.history.eraseIdx j).map coercePinned).length = 0
  · rw [if_pos hz]
    exact not_contains_filter_live _ _ p hp
  · rw [if_neg hz]
    exact not_contains_filter_live _ _ p hp

/-- C1 witness: at a concrete two-entry state, deleting the only entry that
references `g.png` leaves the Content Store untouched, and the subsequent
cleanup pass then removes `g.png`. -/
theorem delete_entry_files_untouched_witness :
    (deleteItem "2" exW1).files = ["g.png", "k.png"] ∧
      "g.png" ∉ (cleanupUnusedImages (deleteItem "2" exW1)).files := by
  have h := delete_entry_files_untouched "2" exW1 1 (by rfl)
  exact ⟨h.1, h.2.2.2.2 "g.png" (by decide)⟩

/-! ### Claim C3 -/

/-- C3: the eviction step preserves the pinned entries exactly (it never
removes a pinned entry); when the history exceeds a limited maximum and an
unpinned entry exists, it removes precisely the unpinned entry nearest the
tail (every entry after the removed index is pinned); when every entry is
pinned it removes nothing; consequently, inserting a new (unpinned) watcher
entry into a history satisfying the count invariant leaves the count above
the maximum only when every remaining entry is pinned. -/
theorem eviction_never_removes_pinned (maxItems : Nat) (h : List ClipboardItem)
    (files : List String) (id txt : String) (ts : Nat) :
    (((limitHistoryItemsF maxItems h files).1).filter (fun i => isPinned i) =
      h.filter (fun i => isPinned i)) ∧
    ((∀ i ∈ h, isPinned i = true) → limitHistoryItemsF maxItems h files = (h, files)) ∧
    (maxItems < 999999 → maxItems < h.length → (∃ i ∈ h, isPinned i = false) →
      ∃ j, lastUnpinnedIdx h = some j ∧
        (limitHistoryItemsF maxItems h files).1 = h.eraseIdx j ∧
        (∃ x, h[j]? = some x ∧ isPinned x = false) ∧
        (∀ k, j < k → ∀ x, h[k]? = some x → isPinned x = true)) ∧
    (maxItems < 999999 →
      (h.length ≤ maxItems ∨ ∀ i ∈ h, isPinned i = true) →
      maxItems < ((limitHistoryItemsF maxItems (newTextItem id txt ts :: h) files).1).length →
      ∀ i ∈ (limitHistoryItemsF maxItems (newTextItem id txt ts :: h) files).1,
        isPinned i = true) := by
  refine ⟨limit_filter_pinned maxItems h files,
    limit_eq_of_all_pinned maxItems h files, ?_, ?_⟩
  · intro hml hgt hex
    rcases lastUnpinnedIdx_isSome h hex with ⟨j, hj⟩
    rcases lastUnpinnedIdx_spec h j hj with ⟨_, hxj, hafter⟩
    refine ⟨j, hj, ?_, hxj, hafter⟩
    rw [limit_eq_erase maxItems h files j hml hgt hj]
  · intro hml hinv hover
    rcases limit_cons_invariant maxItems (newTextItem id txt ts) h files hml rfl hinv with
      hle | hall
    · omega
    · exact hall

/-- C3 witness: concrete instances — with `max = 1` and a pinned-then-
unpinned history the eviction removes exactly the tail unpinned entry and
keeps the pinned one; with an all-pinned over-limit history an insertion
leaves only pinned entries behind. -/
theorem eviction_never_removes_pinned_witness :
    ((limitHistoryItemsF 1 exH3 []).1.filter (fun i => isPinned i) =
      exH3.filter (fun i => isPinned i)) ∧
    (∃ j, lastUnpinnedIdx exH3 = some j ∧ (limitHistoryItemsF 1 exH3 []).1 = exH3.eraseIdx j ∧
      (∃ x, exH3[j]? = some x ∧ isPinned x = false) ∧
      (∀ k, j < k → ∀ x, exH3[k]? = some x → isPinned x = true)) ∧
    (∀ i ∈ (limitHistoryItemsF 1 (newTextItem "c" "C" 9 :: exP3) []).1, isPinned i = true) := by
  have h1 := eviction_never_removes_pinned 1 exH3 [] "c" "C" 9
  have h2 := eviction_never_removes_pinned 1 exP3 [] "c" "C" 9
  refine ⟨h1.1, h1.2.2.1 (by decide) (by decide) ?_, ?_⟩
  · exact ⟨⟨"b", ItemType.text, "B", 2, "B", some false, none⟩, by decide, by decide⟩
  · exact h2.2.2.2 (by decide) (Or.inr (by decide)) (by decide)

/-! ### Claim C7 -/

/-- C7: observing a clipboard image whose hash equals the `content` of an
existing image entry changes nothing at all (no new entry, no file write, no
notification, no save); `saveImageToFile` derives the filename
`<hash>.png`, writes only when the file does not already exist, and is
idempotent. -/
theorem image_dedup_put_idempotent (md5 : List Nat → String) (maxItems : Nat)
    (id : String) (buf : List Nat) (ts : Nat) (s : AppState) (files : List String)
    (hdup : s.history.any (fun i => i.type == ItemType.image && i.content == md5 buf) = true) :
    monitorImageStep md5 maxItems id buf ts s = s ∧
    (saveImageToFile md5 buf files).1 = md5 buf ++ ".png" ∧
    (files.contains (md5 buf ++ ".png") = true →
      (saveImageToFile md5 buf files).2 = files) ∧
    (saveImageToFile md5 buf (saveImageToFile md5 buf files).2).2 =
      (saveImageToFile md5 buf files).2 := by
  refine ⟨?_, ?_, ?_, ?_⟩
  · unfold monitorImageStep
    rw [if_pos hdup]
  · unfold saveImageToFile
    by_cases hc : files.contains (md5 buf ++ ".png") = true
    · rw [if_pos hc]
    · rw [if_neg hc]
  · intro hc
    unfold saveImageToFile
    rw [if_pos hc]
  · unfold saveImageToFile
    by_cases hc : files.contains (md5 buf ++ ".png") = true
    · simp only [if_pos hc]
    · simp only [if_neg hc]
      rw [if_pos (by simp)]

/-- C7 witness: with the digest function constantly `"h"`, re-observing the
image whose hash `"h"` is already in the history is a complete no-op, and a
second `saveImageToFile` writes nothing new. -/
theorem image_dedup_put_idempotent_witness :
    monitorImageStep (fun _ => "h") 50 "9" [] 7 exStateC7 = exStateC7 ∧
    (saveImageToFile (fun _ => "h") [] (saveImageToFile (fun _ => "h") [] []).2).2 =
      (saveImageToFile (fun _ => "h") [] []).2 := by
  have h := image_dedup_put_idempotent (fun _ => "h") 50 "9" [] 7 exStateC7 [] (by decide)
  exact ⟨h.1, h.2.2.2⟩

/-! ### Claim C9 -/

/-- C9 counterexample: pasting a text entry while the external keystroke
simulation fails (`scriptOk = false`) still returns `{success := true}`,
identical to the success case — the failure is not reported to the caller as
a result distinguishable from success. -/
theorem paste_failure_not_distinguishable :
    (setClipboardContent ⟨"1", ItemType.text, "A", 1, "A", some false, none⟩
      true false ⟨[], [], [], 0⟩).1 = ⟨true, none⟩ := by
  rfl

/-- C9 (amended): the result of the paste handler never depends on the
outcome of the external keystroke simulation (its result is ignored and
`{success: true}` is returned on every path that reaches it), and the
application state — in particular the history — is unchanged by every paste,
successful or failed. -/
theorem paste_ignores_script_result (item : ClipboardItem) (decodeOk : Bool)
    (s : AppState) :
    (setClipboardContent item decodeOk true s).1 =
      (setClipboardContent item decodeOk false s).1 ∧
    (setClipboardContent item decodeOk true s).2 = s ∧
    (setClipboardContent item decodeOk false s).2 = s := by
  unfold setClipboardContent
  by_cases ht : item.type = ItemType.text
  · simp [ht]
  · cases hp : item.imagePath with
    | some p =>
      by_cases hc : p ∈ s.files
      · simp [ht, hp, hc]
      · simp [ht, hp, hc]
    | none =>
      cases decodeOk <;> simp [ht, hp]

/-! ### Claim C10 -/

/-- C10: when no entry has the requested id, both the delete-entry and the
toggle-pinned handlers leave the whole state unchanged: same history, no
file write, no notification. -/
theorem missing_id_operations_noop (id : String) (s : AppState)
    (hmiss : ∀ i ∈ s.history, ¬ i.id = id) :
    deleteItem id s = s ∧ togglePinned id s = s := by
  have hf : s.history.findIdx? (fun i => i.id == id) = none :=
    List.findIdx?_eq_none_iff.mpr (fun i hi => by simp [hmiss i hi])
  constructor
  · unfold deleteItem
    rw [hf]
  · unfold togglePinned toggleListCore
    rw [hf]

/-- C10 witness: deleting or toggling the absent id `"z"` on a concrete
one-entry state changes nothing. -/
theorem missing_id_operations_noop_witness :
    deleteItem "z" exStateC10 = exStateC10 ∧ togglePinned "z" exStateC10 = exStateC10 :=
  missing_id_operations_noop "z" exStateC10 (by decide)

/-! ### Claim C5 -/

/-- C5 counterexample: for the reachable history `[B (unpinned, t=2),
A (pinned, t=1)]` — the state a watcher insertion leaves when a pinned entry
exists — `save()` followed by `load()` re-sorts pinned-first and returns
`[A, B]`, not the original sequence. -/
theorem save_load_changes_order :
    (loadHistory (saveHistory exStateC5)).history ≠ exStateC5.history := by
  decide

/-- C5 (amended): `save()` then `load()` reproduces the exact entry
sequence (ids, contents, pinned flags, timestamps, order) whenever the
history's pinned flags are strict booleans and the history is in canonical
order (pinned first, timestamp-descending per group); `load()`'s re-sort
makes the round trip the identity exactly on such histories. -/
theorem save_load_roundtrip (s : AppState) (hb : AllBool s.history)
    (ho : Ordered s.history) :
    (loadHistory (saveHistory s)).history = s.history := by
  show loadTransform ((saveHistory s).file) = s.history
  have h1 : (saveHistory s).file = s.history := map_coerce_eq_self _ hb
  rw [h1]
  unfold loadTransform
  rw [map_coerce_eq_self _ hb, resort_eq_self _ ho]

/-- C5 witness: the round trip is the identity on a concrete canonical
history. -/
theorem save_load_roundtrip_witness :
    (loadHistory (saveHistory exW5)).history = exW5.history :=
  save_load_roundtrip exW5
    (by
      intro i hi
      have : i = ⟨"1", ItemType.text, "A", 1, "A", some true, none⟩ ∨
          i = ⟨"2", ItemType.text, "B", 2, "B", some false, none⟩ := by
        simpa [exW5] using hi
      rcases this with rfl | rfl
      · exact ⟨true, rfl⟩
      · exact ⟨false, rfl⟩)
    (by decide)

/-! ### Claim C8 -/

/-- C8 counterexample: with two pinned entries whose timestamps ascend in
the list, `clearKeepPinned` retains them in list order, but the subsequent
`load()` sorts them by timestamp descending, so the loaded sequence differs
from the retained one. -/
theorem clear_then_load_reorders :
    (clearKeepPinned exStateC8).2 =
      [⟨"1", ItemType.text, "A", 1, "A", some true, none⟩,
       ⟨"2", ItemType.text, "B", 2, "B", some true, none⟩] ∧
    (loadHistory (clearKeepPinned exStateC8).1).history ≠
      (clearKeepPinned exStateC8).2 := by
  constructor
  · rfl
  · decide

/-- C8 (amended): `clearKeepPinned` retains exactly the entries whose
coerced `pinned` is `true`, in their original order, persists them, and
returns them; a subsequent `load()` from the just-saved file yields exactly
those entries, in the same order, provided the retained pinned entries were
already in timestamp-descending order (as in any canonically ordered
history) — otherwise `load()` re-sorts them. -/
theorem clear_keep_pinned_load (s : AppState)
    (hts : TsSorted (s.history.filter (fun i => isPinned i))) :
    (clearKeepPinned s).2 =
      (s.history.map coercePinned).filter (fun i => isPinned i) ∧
    ((clearKeepPinned s).1).history = (clearKeepPinned s).2 ∧
    ((clearKeepPinned s).1).file = (clearKeepPinned s).2 ∧
    (∀ i ∈ (clearKeepPinned s).2, isPinned i = true) ∧
    (loadHistory (clearKeepPinned s).1).history = (clearKeepPinned s).2 := by
  have hfm : (s.history.map coercePinned).filter (fun i => isPinned i) =
      (s.history.filter (fun i => isPinned i)).map coercePinned := by
    rw [List.filter_map]
    exact congrArg _ (List.filter_congr (fun x _ => by
      show isPinned (coercePinned x) = isPinned x
      exact isPinned_coerce x))
  have hab : AllBool ((s.history.map coercePinned).filter (fun i => isPinned i)) := by
    intro i hi
    exact allBool_map_coerce s.history i (List.mem_of_mem_filter hi)
  have hr2 : (clearKeepPinned s).2 =
      (s.history.map coercePinned).filter (fun i => isPinned i) := by
    show ((s.history.map coercePinned).filter (fun i => isPinned i)).map coercePinned =
      (s.history.map coercePinned).filter (fun i => isPinned i)
    exact map_coerce_eq_self _ hab
  have hpin : ∀ i ∈ (clearKeepPinned s).2, isPinned i = true := by
    intro i hi
    rw [hr2] at hi
    simpa using List.of_mem_filter hi
  refine ⟨hr2, by rw [hr2]; exact hr2, by rw [hr2]; exact hr2, hpin, ?_⟩
  show loadTransform ((clearKeepPinned s).1).file = (clearKeepPinned s).2
  have hfile : ((clearKeepPinned s).1).file = (clearKeepPinned s).2 := by
    rw [hr2]; exact hr2
  rw [hfile]
  unfold loadTransform
  have hab2 : AllBool (clearKeepPinned s).2 := by rw [hr2]; exact hab
  rw [map_coerce_eq_self _ hab2]
  unfold resortPinnedFirst
  have hfp : ((clearKeepPinned s).2).filter (fun i => isPinned i) =
      (clearKeepPinned s).2 :=
    List.filter_eq_self.mpr hpin
  have hfu : ((clearKeepPinned s).2).filter (fun i => ! isPinned i) = [] :=
    List.filter_eq_nil_iff.mpr (fun a ha => by simp [hpin a ha])
  rw [hfp, hfu]
  have hts2 : TsSorted ((clearKeepPinned s).2) := by
    rw [hr2, hfm]
    exact tsSorted_map_coerce _ hts
  rw [sortByTsDesc_eq_self _ hts2]
  simp [sortByTsDesc]

/-- C8 witness: at a concrete state whose pinned entries are timestamp-
descending, the retained entries, the persisted file, and the reloaded
history all coincide. -/
theorem clear_keep_pinned_load_witness :
    (∀ i ∈ (clearKeepPinned exW8).2, isPinned i = true) ∧
    (loadHistory (clearKeepPinned exW8).1).history = (clearKeepPinned exW8).2 := by
  have h := clear_keep_pinned_load exW8 (by decide)
  exact ⟨h.2.2.2.1, h.2.2.2.2⟩

/-! ### Claim C2 -/

/-- C2 counterexample: starting from the canonically ordered history
`[A (pinned, t=1)]`, a watcher text insertion at `t=2` prepends the new
unpinned entry at the head, above the pinned entry, so the pinned-first
order is broken by the insertion. -/
theorem insertion_breaks_pinned_first :
    Ordered exStateC2.history ∧
      ¬ Ordered ((monitorTextStep 50 "b" "B" 2 exStateC2).history) := by
  exact ⟨by decide, by decide⟩

theorem toggleListCore_shape (id : String) (h : List ClipboardItem)
    (h2 : List ClipboardItem) (hcore : toggleListCore id h = some h2) :
    ∃ j x, h.findIdx? (fun i => i.id == id) = some j ∧ h[j]? = some x ∧
      h2 = resortPinnedFirst (h.set j (toggleEntry x)) := by
  unfold toggleListCore at hcore
  cases hf : h.findIdx? (fun i => i.id == id) with
  | none => rw [hf] at hcore; simp at hcore
  | some j =>
    rw [hf] at hcore
    have hcore2 : (match h[j]? with
        | none => none
        | some x => some (resortPinnedFirst (h.set j (toggleEntry x)))) = some h2 := hcore
    cases hg : h[j]? with
    | none =>
      rw [hg] at hcore2
      have : (none : Option (List ClipboardItem)) = some h2 := hcore2
      cases this
    | some x =>
      rw [hg] at hcore2
      have hcore3 : some (resortPinnedFirst (h.set j (toggleEntry x))) = some h2 := hcore2
      exact ⟨j, x, rfl, hg, (Option.some_inj.mp hcore3).symm⟩

/-- C2 (amended): load and toggle-pinned always leave the history in
canonical order; delete, clear-keep-pinned and save preserve canonical
order; a watcher insertion (text or image) preserves canonical order only
when no existing entry is pinned and the new timestamp is at least every
existing one — with a pinned entry present it places the new unpinned entry
at the head and breaks the order (see the counterexample). -/
theorem canonical_order_per_operation (maxItems : Nat) (md5 : List Nat → String)
    (id txt : String) (buf : List Nat) (ts : Nat) (s : AppState)
    (ho : Ordered s.history) :
    Ordered ((loadHistory s).history) ∧
    Ordered ((togglePinned id s).history) ∧
    Ordered ((deleteItem id s).history) ∧
    Ordered (((clearKeepPinned s).1).history) ∧
    Ordered ((saveHistory s).history) ∧
    ((∀ i ∈ s.history, isPinned i = false) →
      (∀ i ∈ s.history, i.timestamp ≤ ts) →
      Ordered ((monitorTextStep maxItems id txt ts s).history)) ∧
    ((∀ i ∈ s.history, isPinned i = false) →
      (∀ i ∈ s.history, i.timestamp ≤ ts) →
      Ordered ((monitorImageStep md5 maxItems id buf ts s).history)) := by
  have hcons : ∀ (x : ClipboardItem), isPinned x = false → x.timestamp = ts →
      (∀ i ∈ s.history, isPinned i = false) →
      (∀ i ∈ s.history, i.timestamp ≤ ts) →
      Ordered (x :: s.history) := by
    intro x hpx htx hall hts
    refine List.pairwise_cons.mpr ⟨?_, ho⟩
    intro z hz
    refine ⟨?_, fun _ => ?_⟩
    · rw [hall z hz, hpx]
    · show z.timestamp ≤ x.timestamp
      rw [htx]
      exact hts z hz
  refine ⟨ordered_resort _, ?_, ?_, ?_, ordered_map_coerce _ ho, ?_, ?_⟩
  · unfold togglePinned
    cases hcore : toggleListCore id s.history with
    | none => exact ho
    | some h2 =>
      rcases toggleListCore_shape id s.history h2 hcore with ⟨j, x, _, _, rfl⟩
      exact ordered_map_coerce _ (ordered_resort _)
  · unfold deleteItem
    cases hf : s.history.findIdx? (fun i => i.id == id) with
    | none => exact ho
    | some j =>
      exact ordered_map_coerce _
        (ordered_sublist (List.eraseIdx_sublist _ _) ho)
  · exact ordered_map_coerce _
      (ordered_sublist (List.filter_sublist _) (ordered_map_coerce _ ho))
  · intro hall hts
    show Ordered
      (((limitHistoryItemsF maxItems (newTextItem id txt ts :: s.history) s.files).1).map
        coercePinned)
    exact ordered_map_coerce _
      (ordered_sublist (limit_fst_sublist _ _ _)
        (hcons (newTextItem id txt ts) rfl rfl hall hts))
  · intro hall hts
    unfold monitorImageStep
    by_cases hdup :
      s.history.any (fun i => i.type == ItemType.image && i.content == md5 buf) = true
    · rw [if_pos hdup]
      exact ho
    · rw [if_neg hdup]
      exact ordered_map_coerce _
        (ordered_sublist (limit_fst_sublist _ _ _)
          (hcons (newImageItem id (md5 buf) ts
            (saveImageToFile md5 buf s.files).1) rfl rfl hall hts))

/-- C2 witness: at a concrete all-unpinned descending history, the load,
toggle, delete, clear and insertion operations all leave the history in
canonical order. -/
theorem canonical_order_per_operation_witness :
    Ordered ((loadHistory exW2).history) ∧
    Ordered ((togglePinned "b" exW2).history) ∧
    Ordered ((deleteItem "b" exW2).history) ∧
    Ordered ((monitorTextStep 50 "b" "C" 3 exW2).history) := by
  have h := canonical_order_per_operation 50 (fun _ => "h") "b" "C" [] 3 exW2 (by decide)
  exact ⟨h.1, h.2.1, h.2.2.1, h.2.2.2.2.2.1 (by decide) (by decide)⟩

/-! ### Claim C4 -/

theorem loadTransform_length (l : List ClipboardItem) :
    (loadTransform l).length = l.length := by
  unfold loadTransform
  rw [length_resortPinnedFirst, List.length_map]

/-- C4: starting from the empty state, every operation preserves the
invariant that (when the configured maximum is below the unlimited
sentinel) the history and the persisted file hold at most `maxItems`
entries — pinned entries included in the count — and therefore after every
operation the entry count is at most the maximum or (vacuously here) every
entry beyond the limit is pinned. -/
theorem history_count_bounded (md5 : List Nat → String) (maxItems : Nat) :
    InvLen maxItems initialState ∧
    ∀ (o : Op) (s : AppState), InvLen maxItems s →
      InvLen maxItems (applyOp md5 maxItems o s) ∧
      (maxItems < 999999 →
        ((applyOp md5 maxItems o s).history.length ≤ maxItems ∨
          ∀ i ∈ (applyOp md5 maxItems o s).history.drop maxItems, isPinned i = true)) := by
  constructor
  · intro _
    exact ⟨by simp [initialState], by simp [initialState]⟩
  · intro o s hinv
    have main : InvLen maxItems (applyOp md5 maxItems o s) := by
      cases o with
      | opInsertText id txt ts =>
        intro hml
        rcases hinv hml with ⟨hh, _⟩
        have hlen : ((limitHistoryItemsF maxItems
            (newTextItem id txt ts :: s.history) s.files).1).length ≤ maxItems :=
          limit_length_le maxItems _ s.files hml (by simp; omega)
            ⟨newTextItem id txt ts, List.mem_cons_self _ _, rfl⟩
        constructor
        · show (((limitHistoryItemsF maxItems (newTextItem id txt ts :: s.history)
            s.files).1).map coercePinned).length ≤ maxItems
          rw [List.length_map]
          exact hlen
        · show (((limitHistoryItemsF maxItems (newTextItem id txt ts :: s.history)
            s.files).1).map coercePinned).length ≤ maxItems
          rw [List.length_map]
          exact hlen
      | opInsertImage id buf ts =>
        intro hml
        rcases hinv hml with ⟨hh, hf⟩
        simp only [applyOp]
        unfold monitorImageStep
        by_cases hdup : s.history.any
            (fun i => i.type == ItemType.image && i.content == md5 buf) = true
        · rw [if_pos hdup]
          exact ⟨hh, hf⟩
        · rw [if_neg hdup]
          have hlen : ((limitHistoryItemsF maxItems
              (newImageItem id (md5 buf) ts (saveImageToFile md5 buf s.files).1 :: s.history)
              (saveImageToFile md5 buf s.files).2).1).length ≤ maxItems :=
            limit_length_le maxItems _ _ hml (by simp; omega)
              ⟨newImageItem id (md5 buf) ts (saveImageToFile md5 buf s.files).1,
                List.mem_cons_self _ _, rfl⟩
          constructor
          · simpa using hlen
          · simpa using hlen
      | opDelete id =>
        intro hml
        rcases hinv hml with ⟨hh, hf⟩
        simp only [applyOp]
        unfold deleteItem
        cases hfi : s.history.findIdx? (fun i => i.id == id) with
        | none => exact ⟨hh, hf⟩
        | some j =>
          have hlen : ((s.history.eraseIdx j).map coercePinned).length ≤ maxItems := by
            rw [List.length_map, List.length_eraseIdx]
            split <;> omega
          exact ⟨hlen, hlen⟩
      | opToggle id =>
        intro hml
        rcases hinv hml with ⟨hh, hf⟩
        simp only [applyOp]
        unfold togglePinned
        cases hcore : toggleListCore id s.history with
        | none => exact ⟨hh, hf⟩
        | some h2 =>
          rcases toggleListCore_shape id s.history h2 hcore with ⟨j, x, _, _, rfl⟩
          have hlen : ((resortPinnedFirst (s.history.set j (toggleEntry x))).map
              coercePinned).length ≤ maxItems := by
            rw [List.length_map, length_resortPinnedFirst, List.length_set]
            exact hh
          exact ⟨hlen, hlen⟩
      | opClear =>
        intro hml
        rcases hinv hml with ⟨hh, _⟩
        have hlen : ((((s.history.map coercePinned).filter (fun i => isPinned i))).map
            coercePinned).length ≤ maxItems := by
          rw [List.length_map]
          calc ((s.history.map coercePinned).filter (fun i => isPinned i)).length
              ≤ (s.history.map coercePinned).length := List.length_filter_le _ _
            _ = s.history.length := List.length_map _ _
            _ ≤ maxItems := hh
        exact ⟨hlen, hlen⟩
      | opLoad =>
        intro hml
        rcases hinv hml with ⟨_, hf⟩
        constructor
        · show (loadTransform s.file).length ≤ maxItems
          rw [loadTransform_length]
          exact hf
        · exact hf
      | opSave =>
        intro hml
        rcases hinv hml with ⟨hh, _⟩
        constructor
        · show ((s.history.map coercePinned)).length ≤ maxItems
          rw [List.length_map]
          exact hh
        · show ((s.history.map coercePinned)).length ≤ maxItems
          rw [List.length_map]
          exact hh
    exact ⟨main, fun hml => Or.inl (main hml).1⟩

/-- C4 witness: inserting into a one-entry state with `max = 50` keeps both
the history and the file within the bound. -/
theorem history_count_bounded_witness :
    InvLen 50 (applyOp (fun _ => "h") 50 (Op.opInsertText "b" "B" 2) exW4) ∧
    ((applyOp (fun _ => "h") 50 (Op.opInsertText "b" "B" 2) exW4).history.length ≤ 50 ∨
      ∀ i ∈ (applyOp (fun _ => "h") 50 (Op.opInsertText "b" "B" 2) exW4).history.drop 50,
        isPinned i = true) := by
  have h := (history_count_bounded (fun _ => "h") 50).2 (Op.opInsertText "b" "B" 2) exW4
    (fun _ => ⟨by decide, by decide⟩)
  exact ⟨h.1, h.2 (by decide)⟩

/-! ### Claim C6: toggle as a pointwise map, under unique ids -/

theorem id_updIfId (id : String) (i : ClipboardItem) : (updIfId id i).id = i.id := by
  unfold updIfId
  split <;> rfl

theorem updIfId_eq_self (id : String) (i : ClipboardItem)
    (hne : (i.id == id) = false) : updIfId id i = i := by
  unfold updIfId
  rw [if_neg (by simp [hne])]

theorem toggleEntry_toggleEntry (i : ClipboardItem) (b : Bool)
    (hb : i.pinned = some b) : toggleEntry (toggleEntry i) = i := by
  cases i
  cases b <;> simp_all [toggleEntry, isPinned]

theorem updIfId_updIfId (id : String) (i : ClipboardItem) (b : Bool)
    (hb : i.pinned = some b) : updIfId id (updIfId id i) = i := by
  by_cases hm : (i.id == id) = true
  · unfold updIfId
    rw [if_pos hm, if_pos (by show ((toggleEntry i).id == id) = true; exact hm)]
    exact toggleEntry_toggleEntry i b hb
  · rw [updIfId_eq_self id i (by simpa using hm),
      updIfId_eq_self id i (by simpa using hm)]

theorem filter_map_updIfId (P : String → Bool) (id : String)
    (l : List ClipboardItem) :
    (l.map (updIfId id)).filter (fun i => P i.id) =
      (l.filter (fun i => P i.id)).map (updIfId id) := by
  rw [List.filter_map]
  refine congrArg _ (List.filter_congr ?_)
  intro x _
  show P (updIfId id x).id = P x.id
  rw [id_updIfId]

theorem allBool_map_updIfId (id : String) (l : List ClipboardItem)
    (hb : AllBool l) : AllBool (l.map (updIfId id)) := by
  intro i hi
  rcases List.mem_map.mp hi with ⟨j, hj, rfl⟩
  unfold updIfId
  split
  · exact ⟨! isPinned j, rfl⟩
  · exact hb j hj

theorem ids_map_updIfId (id : String) (l : List ClipboardItem) :
    (l.map (updIfId id)).map (fun i => i.id) = l.map (fun i => i.id) := by
  rw [List.map_map]
  exact List.map_congr_left (fun x _ => id_updIfId id x)

theorem map_updIfId_eq_self (id : String) (l : List ClipboardItem)
    (hall : ∀ i ∈ l, (i.id == id) = false) : l.map (updIfId id) = l := by
  induction l with
  | nil => rfl
  | cons a t ih =>
    rw [List.map_cons, updIfId_eq_self id a (hall a (List.mem_cons_self a t)),
      ih (fun i hi => hall i (List.mem_cons_of_mem a hi))]

theorem resort_singleton (y : ClipboardItem) : resortPinnedFirst [y] = [y] := by
  unfold resortPinnedFirst
  cases hy : isPinned y <;>
    simp [List.filter, hy, sortByTsDesc, insertByTsDesc]

theorem filter_id_eq_singleton (id : String) (h : List ClipboardItem)
    (hn : (h.map (fun i => i.id)).Nodup) (x : ClipboardItem) (hx : x ∈ h)
    (hxid : x.id = id) : h.filter (fun i => i.id == id) = [x] := by
  induction h with
  | nil => cases hx
  | cons a t ih =>
    rw [List.map_cons] at hn
    rcases List.nodup_cons.mp hn with ⟨hna, hnt⟩
    rcases List.mem_cons.mp hx with rfl | hxt
    · rw [List.filter_cons_of_pos (by simp [hxid])]
      have hnil : t.filter (fun i => i.id == id) = [] := by
        apply List.filter_eq_nil_iff.mpr
        intro z hz hcontra
        apply hna
        have hzid : z.id = id := by simpa using hcontra
        rw [hxid, ← hzid]
        exact List.mem_map_of_mem _ hz
      rw [hnil]
    · have hfa : (a.id == id) = false := by
        by_contra hcon
        have haid : a.id = id := by
          simpa using (Bool.not_eq_false _).mp hcon
        apply hna
        rw [haid, ← hxid]
        exact List.mem_map_of_mem _ hxt
      rw [List.filter_cons_of_neg (by simp [hfa]), ih hnt hxt]

theorem toggle_set_eq_map (id : String) (h : List ClipboardItem)
    (hn : (h.map (fun i => i.id)).Nodup) (x : ClipboardItem) (hx : x ∈ h)
    (hxid : x.id = id) :
    ∃ j y, h.findIdx? (fun i => i.id == id) = some j ∧ h[j]? = some y ∧
      h.set j (toggleEntry y) = h.map (updIfId id) := by
  induction h with
  | nil => cases hx
  | cons a t ih =>
    rw [List.map_cons] at hn
    rcases List.nodup_cons.mp hn with ⟨hna, hnt⟩
    by_cases ha : (a.id == id) = true
    · refine ⟨0, a, ?_, by simp, ?_⟩
      · rw [List.findIdx?_cons, if_pos ha]
      · have hmt : t.map (updIfId id) = t := by
          apply map_updIfId_eq_self
          intro z hz
          by_contra hcon
          have hzid : z.id = id := by
            simpa using (Bool.not_eq_false _).mp hcon
          apply hna
          have haid : a.id = id := by simpa using ha
          rw [haid, ← hzid]
          exact List.mem_map_of_mem _ hz
        show toggleEntry a :: t = updIfId id a :: t.map (updIfId id)
        rw [hmt]
        unfold updIfId
        rw [if_pos ha]
    · have hxt : x ∈ t := by
        rcases List.mem_cons.mp hx with heq | hxt
        · subst heq
          simp [hxid] at ha
        · exact hxt
      rcases ih hnt hxt with ⟨j, y, hfi, hgy, hset⟩
      refine ⟨j + 1, y, ?_, by simpa using hgy, ?_⟩
      · rw [List.findIdx?_cons, if_neg (by simp [ha]), List.findIdx?_succ, hfi]
        rfl
      · show a :: t.set j (toggleEntry y) = updIfId id a :: t.map (updIfId id)
        rw [hset, updIfId_eq_self id a (by simpa using ha)]

theorem toggleList_eq_resort_map (id : String) (h : List ClipboardItem)
    (hn : (h.map (fun i => i.id)).Nodup) (hb : AllBool h) (x : ClipboardItem)
    (hx : x ∈ h) (hxid : x.id = id) :
    toggleList id h = resortPinnedFirst (h.map (updIfId id)) := by
  rcases toggle_set_eq_map id h hn x hx hxid with ⟨j, y, hfi, hgy, hset⟩
  have hcore : toggleListCore id h =
      some (resortPinnedFirst (h.set j (toggleEntry y))) := by
    unfold toggleListCore
    rw [hfi]
    show (match h[j]? with
      | none => none
      | some x => some (resortPinnedFirst (h.set j (toggleEntry x)))) =
      some (resortPinnedFirst (h.set j (toggleEntry y)))
    rw [hgy]
  unfold toggleList
  rw [hcore]
  show (resortPinnedFirst (h.set j (toggleEntry y))).map coercePinned =
    resortPinnedFirst (h.map (updIfId id))
  rw [hset]
  apply map_coerce_eq_self
  exact allBool_of_perm (perm_resortPinnedFirst _).symm (allBool_map_updIfId id h hb)

theorem togglePinned_history (id : String) (s : AppState) :
    (togglePinned id s).history = toggleList id s.history := by
  unfold togglePinned toggleList
  cases toggleListCore id s.history <;> rfl

/-- C6 counterexample: in the reachable history `[D (unpinned, t=2),
C (pinned, t=0), B (unpinned, t=1)]` — a watcher insertion above a pinned
entry — toggling `B` twice leaves the untouched entries `D`, `C` in the
order `C, D`, the reverse of their original relative order, because each
toggle re-sorts the whole list canonically. -/
theorem double_toggle_reorders_untouched :
    (∃ x ∈ exStateC6.history, x.id = "b") ∧
    ((togglePinned "b" (togglePinned "b" exStateC6)).history.filter
        (fun i => ! (i.id == "b")) ≠
      exStateC6.history.filter (fun i => ! (i.id == "b"))) := by
  constructor
  · exact ⟨⟨"b", ItemType.text, "B", 1, "B", some false, none⟩, by decide, rfl⟩
  · decide

/-- C6 (amended): when the history has unique ids, strict-boolean pinned
flags, and is in canonical order, toggling an existing entry's pin twice
restores that entry exactly (original pinned value included) and leaves the
relative order of all untouched entries unchanged; without the canonical
order assumption the two re-sorts can permute untouched entries (see the
counterexample). -/
theorem double_toggle_restores (id : String) (s : AppState)
    (hn : (s.history.map (fun i => i.id)).Nodup)
    (hb : AllBool s.history)
    (ho : Ordered s.history)
    (x : ClipboardItem) (hx : x ∈ s.history) (hxid : x.id = id) :
    ((togglePinned id (togglePinned id s)).history.filter (fun i => i.id == id) =
      s.history.filter (fun i => i.id == id)) ∧
    ((togglePinned id (togglePinned id s)).history.filter (fun i => ! (i.id == id)) =
      s.history.filter (fun i => ! (i.id == id))) := by
  have hstep1 : (togglePinned id s).history =
      resortPinnedFirst (s.history.map (updIfId id)) := by
    rw [togglePinned_history]
    exact toggleList_eq_resort_map id s.history hn hb x hx hxid
  have hperm1 : List.Perm (resortPinnedFirst (s.history.map (updIfId id)))
      (s.history.map (updIfId id)) := perm_resortPinnedFirst _
  have hn1 : ((resortPinnedFirst (s.history.map (updIfId id))).map
      (fun i => i.id)).Nodup := by
    have hpm := hperm1.map (fun i => i.id)
    rw [ids_map_updIfId] at hpm
    exact hpm.nodup_iff.mpr hn
  have hb1 : AllBool (resortPinnedFirst (s.history.map (updIfId id))) :=
    allBool_of_perm hperm1.symm (allBool_map_updIfId id s.history hb)
  have hx1 : updIfId id x ∈ resortPinnedFirst (s.history.map (updIfId id)) :=
    hperm1.mem_iff.mpr (List.mem_map_of_mem _ hx)
  have hx1id : (updIfId id x).id = id := by
    rw [id_updIfId]
    exact hxid
  have hstep2 : (togglePinned id (togglePinned id s)).history =
      resortPinnedFirst
        ((resortPinnedFirst (s.history.map (updIfId id))).map (updIfId id)) := by
    rw [togglePinned_history, hstep1]
    exact toggleList_eq_resort_map id _ hn1 hb1 (updIfId id x) hx1 hx1id
  have hq1 : (resortPinnedFirst (s.history.map (updIfId id))).filter
      (fun i => ! (i.id == id)) = s.history.filter (fun i => ! (i.id == id)) := by
    rw [filter_resort,
      show (s.history.map (updIfId id)).filter (fun i => ! (i.id == id)) =
        (s.history.filter (fun i => ! (i.id == id))).map (updIfId id) from
        filter_map_updIfId (fun t => ! (t == id)) id s.history,
      map_updIfId_eq_self id _ (fun i hi => by simpa using List.of_mem_filter hi)]
    exact resort_eq_self _ (ordered_sublist (List.filter_sublist _) ho)
  have hq2 : (togglePinned id (togglePinned id s)).history.filter
      (fun i => ! (i.id == id)) = s.history.filter (fun i => ! (i.id == id)) := by
    rw [hstep2, filter_resort,
      show ((resortPinnedFirst (s.history.map (updIfId id))).map (updIfId id)).filter
          (fun i => ! (i.id == id)) =
        ((resortPinnedFirst (s.history.map (updIfId id))).filter
          (fun i => ! (i.id == id))).map (updIfId id) from
        filter_map_updIfId (fun t => ! (t == id)) id _,
      hq1,
      map_updIfId_eq_self id _ (fun i hi => by simpa using List.of_mem_filter hi)]
    exact resort_eq_self _ (ordered_sublist (List.filter_sublist _) ho)
  have hp0 : s.history.filter (fun i => i.id == id) = [x] :=
    filter_id_eq_singleton id s.history hn x hx hxid
  have hp1 : (resortPinnedFirst (s.history.map (updIfId id))).filter
      (fun i => i.id == id) = [updIfId id x] := by
    rw [filter_resort,
      show (s.history.map (updIfId id)).filter (fun i => i.id == id) =
        (s.history.filter (fun i => i.id == id)).map (updIfId id) from
        filter_map_updIfId (fun t => t == id) id s.history,
      hp0]
    exact resort_singleton _
  have hp2 : (togglePinned id (togglePinned id s)).history.filter
      (fun i => i.id == id) = [x] := by
    rw [hstep2, filter_resort,
      show ((resortPinnedFirst (s.history.map (updIfId id))).map (updIfId id)).filter
          (fun i => i.id == id) =
        ((resortPinnedFirst (s.history.map (updIfId id))).filter
          (fun i => i.id == id)).map (updIfId id) from
        filter_map_updIfId (fun t => t == id) id _,
      hp1]
    rcases hb x hx with ⟨b, hbb⟩
    show resortPinnedFirst [updIfId id (updIfId id x)] = [x]
    rw [updIfId_updIfId id x b hbb]
    exact resort_singleton x
  exact ⟨hp2.trans hp0.symm, hq2⟩

/-- C6 witness: on a concrete canonical two-entry history with unique ids,
double-toggling `b` restores the toggled entry and the untouched entry's
position. -/
theorem double_toggle_restores_witness :
    ((togglePinned "b" (togglePinned "b" exW6)).history.filter
        (fun i => i.id == "b") =
      exW6.history.filter (fun i => i.id == "b")) ∧
    ((togglePinned "b" (togglePinned "b" exW6)).history.filter
        (fun i => ! (i.id == "b")) =
      exW6.history.filter (fun i => ! (i.id == "b"))) :=
  double_toggle_restores "b" exW6 (by decide)
    (by
      intro i hi
      have : i = ⟨"a", ItemType.text, "A", 2, "A", some true, none⟩ ∨
          i = ⟨"b", ItemType.text, "B", 1, "B", some false, none⟩ := by
        simpa [exW6] using hi
      rcases this with rfl | rfl
      · exact ⟨true, rfl⟩
      · exact ⟨false, rfl⟩)
    (by decide)
    ⟨"b", ItemType.text, "B", 1, "B", some false, none⟩ (by decide) rfl

end MacPin
